import Mathlib

set_option maxRecDepth 400000

/-!
Verification of the EIA-860/EIA-923 generator-fleet processing pipeline
(`scrape.py` and `database_interface.py`): a shallow embedding of the
heat-rate estimator, the outlier clamp, the unit aggregator, the
retirement netting step and the multi-fuel detector, with theorems about
the claims of the specification.

Machine floats of the source are modelled as exact rationals (`ℚ`), with
the non-finite values (`inf`, `-inf`, `nan`) produced by pandas division
represented explicitly where they matter.
-/

set_option allowUnsafeReducibility true in
attribute [semireducible] Rat.add Rat.mul Rat.sub Rat.inv

namespace EiaScrape

/-! ### Peer-group heat-rate estimator
(`database_interface.py`, `assign_heat_rates_to_projects`, lines 448-481) -/

/-- One row of `thermal_gens_w_hr`: a thermal generating unit that holds a
valid measured heat rate.  Columns kept: `Prime Mover`, `Energy Source`,
`Operating Year`, `Best Heat Rate`. -/
structure TGen where
  primeMover : String
  energySource : String
  operatingYear : Int
  bestHeatRate : ℚ
deriving DecidableEq

/-- The peer selection of `calculate_avg_heat_rate`
(database_interface.py lines 449-453 and 456-460): units with the same
prime mover and energy source whose operating year lies in
`[vintage - window, vintage + window]` (both ends inclusive). -/
def similar_generators (df : List TGen) (pm es : String) (vintage : Int)
    (window : Nat) : List TGen :=
  df.filter fun g =>
    decide (g.primeMover = pm ∧ g.energySource = es ∧
      vintage - window ≤ g.operatingYear ∧ g.operatingYear ≤ vintage + window)

/-- The widening `while len(similar_generators) < 4` loop of
`calculate_avg_heat_rate` (database_interface.py lines 454-463): on each
iteration the window grows by 2 (`window += 2`), the peer set is
recomputed, and the loop breaks once `window >= 103`.  The loop is
bounded (the window reaches 104 after at most 51 iterations when started
at 2), so it is embedded with a fuel parameter that dominates that
bound. -/
def hrSearchF (df : List TGen) (pm es : String) (vintage : Int) :
    Nat → Nat → List TGen
  | 0, window => similar_generators df pm es vintage window
  | fuel + 1, window =>
    let s := similar_generators df pm es vintage window
    if s.length < 4 then
      if 103 ≤ window + 2 then similar_generators df pm es vintage (window + 2)
      else hrSearchF df pm es vintage fuel (window + 2)
    else s

/-- Enough fuel for the widening loop started at any window `w ≥ 2`:
the loop stops before performing 60 iterations. -/
def hrSearch (df : List TGen) (pm es : String) (vintage : Int)
    (window : Nat) : List TGen :=
  hrSearchF df pm es vintage 60 window

/-- pandas `Series.mean()`: `NaN` on an empty series, the arithmetic mean
otherwise (the series carries no missing values at the call sites). -/
def listMean (l : List ℚ) : Option ℚ :=
  if l.isEmpty then none else some (l.sum / (l.length : ℚ))

/-- The technology-only fallback of `calculate_avg_heat_rate`
(database_interface.py line 468): the unweighted mean heat rate of all
units sharing the prime-mover code, ignoring fuel and vintage. -/
def technology_mean (df : List TGen) (pm : String) : Option ℚ :=
  listMean ((df.filter fun g => decide (g.primeMover = pm)).map (·.bestHeatRate))

/-- `calculate_avg_heat_rate` (database_interface.py lines 448-468):
run the widening peer search from the default window 2; if the final
peer set is nonempty return its mean heat rate, otherwise return the
technology-only mean. -/
def calculate_avg_heat_rate (df : List TGen) (pm es : String) (vintage : Int)
    (window : Nat := 2) : Option ℚ :=
  let s := hrSearch df pm es vintage window
  if 0 < s.length then listMean (s.map (·.bestHeatRate))
  else technology_mean df pm

/-- The window widths the loop can test before its `window >= 103`
cut-off fires: `2, 4, ..., 102`. -/
def searchWindows : List Nat := (List.range 51).map fun k => 2 * k + 2

/-- Declarative form of the window the loop stops at: the smallest width
in `2, 4, ..., 102` whose peer set has at least 4 members, and `104`
(the width of the very last search performed after the `window >= 103`
cut-off) when no tested width reaches 4 peers. -/
def stopWindow (df : List TGen) (pm es : String) (vintage : Int) : Nat :=
  (searchWindows.find? fun w =>
    4 ≤ (similar_generators df pm es vintage w).length).getD 104

/-- Modelled from the spec: the claimed search procedure in which, when
fewer than 4 peers are found, "W is doubled and the search repeated, up
to W = 103".  Identical to `hrSearchF` except that the window is doubled
(`window * 2`) instead of increased by 2. -/
def spec_doubling_searchF (df : List TGen) (pm es : String) (vintage : Int) :
    Nat → Nat → List TGen
  | 0, window => similar_generators df pm es vintage window
  | fuel + 1, window =>
    let s := similar_generators df pm es vintage window
    if s.length < 4 then
      if 103 ≤ window * 2 then similar_generators df pm es vintage (window * 2)
      else spec_doubling_searchF df pm es vintage fuel (window * 2)
    else s

/-- Modelled from the spec: the estimator as the claim describes it,
with a doubling window (starting at 2, at most 7 doublings reach the
cut-off). -/
def spec_avg_heat_rate (df : List TGen) (pm es : String) (vintage : Int) :
    Option ℚ :=
  let s := spec_doubling_searchF df pm es vintage 8 2
  if 0 < s.length then listMean (s.map (·.bestHeatRate))
  else technology_mean df pm

/-! Facts about the peer search. -/

theorem mem_similar_generators {df : List TGen} {pm es : String} {vintage : Int}
    {window : Nat} {g : TGen} :
    g ∈ similar_generators df pm es vintage window ↔
      g ∈ df ∧ g.primeMover = pm ∧ g.energySource = es ∧
        vintage - window ≤ g.operatingYear ∧ g.operatingYear ≤ vintage + window := by
  simp [similar_generators, List.mem_filter]

theorem similar_generators_mono {df : List TGen} {pm es : String} {vintage : Int}
    {w w' : Nat} (h : w ≤ w') :
    ∀ g ∈ similar_generators df pm es vintage w,
      g ∈ similar_generators df pm es vintage w' := by
  intro g hg
  rw [mem_similar_generators] at hg ⊢
  obtain ⟨hdf, hpm, hes, hlo, hhi⟩ := hg
  have hw : (w : ℤ) ≤ (w' : ℤ) := by exact_mod_cast h
  exact ⟨hdf, hpm, hes, by omega, by omega⟩

theorem searchWindows_pairwise : searchWindows.Pairwise (· < ·) := by
  have h : (List.range 51).Pairwise (· < ·) := List.pairwise_lt_range 51
  unfold searchWindows
  rw [List.pairwise_map]
  exact h.imp (by omega)

theorem searchWindows_lt_104 : ∀ w ∈ searchWindows, w < 104 := by
  intro w hw
  unfold searchWindows at hw
  rw [List.mem_map] at hw
  obtain ⟨k, hk, rfl⟩ := hw
  rw [List.mem_range] at hk
  omega

/-- On a strictly increasing list, every element below the found (or
default) element fails the predicate. -/
theorem find?_getD_minimal {p : Nat → Bool} :
    ∀ {l : List Nat}, l.Pairwise (· < ·) → ∀ {top : Nat}, (∀ x ∈ l, x < top) →
      ∀ b ∈ l, b < (l.find? p).getD top → p b = false := by
  intro l
  induction l with
  | nil => intro _ _ _ b hb; simp at hb
  | cons a l ih =>
    intro hpw top htop b hb hlt
    rcases hpa : p a with _ | _
    · rw [List.find?_cons_of_neg _ (by simp [hpa])] at hlt
      rcases List.mem_cons.mp hb with rfl | hb
      · exact hpa
      · exact ih hpw.of_cons (fun x hx => htop x (List.mem_cons_of_mem _ hx)) b hb hlt
    · rw [List.find?_cons_of_pos _ (by simp [hpa])] at hlt
      simp only [Option.getD_some] at hlt
      rcases List.mem_cons.mp hb with rfl | hb
      · omega
      · exact absurd hlt (by have := (List.pairwise_cons.mp hpw).1 b hb; omega)

/-- The fuelled loop, started at an even window between 2 and 102 with
enough fuel, stops at the first window of the remaining schedule whose
peer set has at least 4 members (at window 104 when there is none). -/
theorem hrSearchF_eq_find? (df : List TGen) (pm es : String) (v : Int) :
    ∀ (fuel w : Nat), w % 2 = 0 → 2 ≤ w → w ≤ 102 → 104 ≤ w + 2 * fuel →
      hrSearchF df pm es v fuel w =
        similar_generators df pm es v
          (((searchWindows.drop ((w - 2) / 2)).find? fun x =>
              4 ≤ (similar_generators df pm es v x).length).getD 104) := by
  intro fuel
  induction fuel with
  | zero => intro w _ _ h102 h104; omega
  | succ fuel ih =>
    intro w heven h2 h102 h104
    have hk : (w - 2) / 2 < searchWindows.length := by
      simp only [searchWindows, List.length_map, List.length_range]
      omega
    have hget : searchWindows[(w - 2) / 2] = w := by
      simp only [searchWindows, List.getElem_map, List.getElem_range]
      omega
    have hdrop : searchWindows.drop ((w - 2) / 2) =
        w :: searchWindows.drop ((w - 2) / 2 + 1) := by
      rw [List.drop_eq_getElem_cons hk, hget]
    rw [hdrop]
    show (let s := similar_generators df pm es v w
      if s.length < 4 then
        if 103 ≤ w + 2 then similar_generators df pm es v (w + 2)
        else hrSearchF df pm es v fuel (w + 2)
      else s) = _
    by_cases hlen : (similar_generators df pm es v w).length < 4
    · rw [List.find?_cons_of_neg _ (by simp; omega)]
      simp only [hlen, if_true]
      by_cases hcut : 103 ≤ w + 2
      · have hw102 : w = 102 := by omega
        have hnil : searchWindows.drop ((w - 2) / 2 + 1) = [] := by
          apply List.drop_eq_nil_of_le
          simp only [searchWindows, List.length_map, List.length_range]
          omega
        simp only [hcut, if_true, hnil, List.find?_nil, Option.getD_none]
        congr 1
        omega
      · simp only [hcut, if_false]
        have hnext : (w + 2 - 2) / 2 = (w - 2) / 2 + 1 := by omega
        rw [ih (w + 2) (by omega) (by omega) (by omega) (by omega), hnext]
    · rw [List.find?_cons_of_pos _ (by simp; omega)]
      simp only [hlen, if_false, Option.getD_some]

/-- The production entry point of the loop (window 2) lands exactly on
`stopWindow`. -/
theorem hrSearch_eq_stopWindow (df : List TGen) (pm es : String) (v : Int) :
    hrSearch df pm es v 2 = similar_generators df pm es v (stopWindow df pm es v) := by
  have h := hrSearchF_eq_find? df pm es v 60 2 (by norm_num) (by norm_num)
    (by norm_num) (by norm_num)
  simpa [hrSearch, stopWindow] using h

/-- C1 (amended): for a unit lacking a valid measured heat rate, the
substitute is the mean of the heat rates of peers with the same
prime-mover code and the same energy-source code whose operating year
lies within `vintage - W` to `vintage + W` inclusive, where `W` is the
smallest member of `2, 4, 6, ..., 102` (the window grows by 2, it is not
doubled) for which at least 4 peers exist; if no such member exists the
final window is 104 (the loop exits once the window reaches at least
103); if that final peer set is empty, the result is the unweighted mean
heat rate of all units sharing only the prime-mover code.  Moreover every
window of the schedule strictly below the stopping window holds fewer
than 4 peers, and a stopping window other than 104 holds at least 4. -/
theorem calculate_avg_heat_rate_spec (df : List TGen) (pm es : String) (v : Int) :
    calculate_avg_heat_rate df pm es v =
      (let s := similar_generators df pm es v (stopWindow df pm es v)
       if 0 < s.length then listMean (s.map (·.bestHeatRate))
       else technology_mean df pm) ∧
    (∀ w ∈ searchWindows, w < stopWindow df pm es v →
      (similar_generators df pm es v w).length < 4) ∧
    (stopWindow df pm es v ≠ 104 →
      4 ≤ (similar_generators df pm es v (stopWindow df pm es v)).length) := by
  refine ⟨?_, ?_, ?_⟩
  · show (if 0 < (hrSearch df pm es v 2).length then _ else _) = _
    rw [hrSearch_eq_stopWindow]
  · intro w hw hlt
    have := find?_getD_minimal searchWindows_pairwise searchWindows_lt_104 w hw
      (by simpa [stopWindow] using hlt)
    simpa using this
  · intro hne
    have : (searchWindows.find? fun x =>
        4 ≤ (similar_generators df pm es v x).length).isSome := by
      rcases hfind : searchWindows.find? fun x =>
          4 ≤ (similar_generators df pm es v x).length with _ | w
      · exact absurd (by simp [stopWindow, hfind]) hne
      · simp
    rcases Option.isSome_iff_exists.mp this with ⟨w, hw⟩
    have hp := List.find?_some hw
    have : stopWindow df pm es v = w := by simp [stopWindow, hw]
    rw [this]
    simpa using hp

/-- C2 (amended): the peer search only ever widens — a peer inside a
window stays inside every larger window — and a unit whose peer set is
empty even at the final window width 104 (hence, by monotonicity, at
every smaller window) receives the technology-only average: the loop
stops rather than looping indefinitely.  (The claim's premise "zero
peers within every window smaller than 103" is not enough: a peer at
vintage distance 103 or 104 is still found by the final window-104
search, see the counterexample.) -/
theorem peer_search_monotone_and_fallback (df : List TGen) (pm es : String)
    (v : Int) (w w' : Nat) (hww : w ≤ w')
    (hempty : similar_generators df pm es v 104 = []) :
    (∀ g ∈ similar_generators df pm es v w,
        g ∈ similar_generators df pm es v w') ∧
    calculate_avg_heat_rate df pm es v = technology_mean df pm := by
  constructor
  · exact similar_generators_mono hww
  · have hsub : similar_generators df pm es v (stopWindow df pm es v) = [] := by
      have hle : stopWindow df pm es v ≤ 104 := by
        rcases hfind : searchWindows.find? fun x =>
            4 ≤ (similar_generators df pm es v x).length with _ | x
        · simp [stopWindow, hfind]
        · have hmem := List.mem_of_find?_eq_some hfind
          have := searchWindows_lt_104 x hmem
          simp only [stopWindow, hfind, Option.getD_some]
          omega
      rw [List.eq_nil_iff_forall_not_mem]
      intro g hg
      have := similar_generators_mono hle g hg
      rw [hempty] at this
      exact absurd this (List.not_mem_nil g)
    show (if 0 < (hrSearch df pm es v 2).length then _ else _) = _
    rw [hrSearch_eq_stopWindow, hsub]
    simp

/-! Concrete datasets for the peer-search claims. -/

/-- Four peers at vintage distance 6 and one at distance 8 from the year
2000: the `+2` schedule of the code stops at window 6 (4 peers), while
the doubled schedule of the claim jumps from 4 to 8 and averages all 5. -/
def exPeerGrow : List TGen :=
  [⟨"ST", "Gas", 2006, 10⟩, ⟨"ST", "Gas", 2006, 10⟩, ⟨"ST", "Gas", 2006, 10⟩,
   ⟨"ST", "Gas", 2006, 10⟩, ⟨"ST", "Gas", 2008, 20⟩]

/-- C1 (counterexample): on `exPeerGrow` the code returns the mean of
the 4 peers found at window 6 (heat rate 10), while the claimed
doubling search returns the mean of the 5 peers inside window 8
(heat rate 12): the window is widened by 2, not doubled. -/
theorem claim_doubling_window_counterexample :
    calculate_avg_heat_rate exPeerGrow "ST" "Gas" 2000 = some 10 ∧
    spec_avg_heat_rate exPeerGrow "ST" "Gas" 2000 = some 12 := by
  have h1 : hrSearch exPeerGrow "ST" "Gas" 2000 2 =
      [⟨"ST", "Gas", 2006, 10⟩, ⟨"ST", "Gas", 2006, 10⟩, ⟨"ST", "Gas", 2006, 10⟩,
       ⟨"ST", "Gas", 2006, 10⟩] := by decide
  have h2 : spec_doubling_searchF exPeerGrow "ST" "Gas" 2000 8 2 =
      exPeerGrow := by decide
  constructor
  · simp only [calculate_avg_heat_rate, h1, listMean]
    norm_num
  · simp only [spec_avg_heat_rate, h2]
    norm_num [listMean, exPeerGrow]

/-- A matching peer at vintage distance 103 (outside every window up to
102, inside the final window 104) next to a same-technology,
different-fuel unit. -/
def exFarPeer : List TGen :=
  [⟨"ST", "Gas", 103, 10⟩, ⟨"ST", "Oil", 0, 20⟩]

/-- C2 (counterexample): `exFarPeer` with vintage 0 has zero
technology-and-fuel peers within every window smaller than 103, yet the
estimator returns the window-104 peer average (10), not the
technology-only average (15): the final search uses window 104, so the
claim's premise does not force the fallback. -/
theorem claim_window_fallback_counterexample :
    similar_generators exFarPeer "ST" "Gas" 0 102 = [] ∧
    calculate_avg_heat_rate exFarPeer "ST" "Gas" 0 = some 10 ∧
    technology_mean exFarPeer "ST" = some 15 := by
  refine ⟨by decide, ?_, ?_⟩
  · have h1 : hrSearch exFarPeer "ST" "Gas" 0 2 = [⟨"ST", "Gas", 103, 10⟩] := by
      decide
    simp only [calculate_avg_heat_rate, h1, listMean]
    norm_num
  · have h2 : (exFarPeer.filter fun g => decide (g.primeMover = "ST")) =
        exFarPeer := by decide
    simp only [technology_mean, h2, listMean, exFarPeer]
    norm_num

/-- A one-unit dataset whose single unit never matches the searched
technology-and-fuel pair. -/
def exNoPeer : List TGen := [⟨"GT", "Oil", 1990, 20⟩]

/-- Witness for C2 (amended) at a concrete input: windows 2 and 4 are
nested, and with an empty window-104 peer set the estimator returns the
technology-only mean. -/
theorem peer_search_monotone_and_fallback_witness :
    (∀ g ∈ similar_generators exNoPeer "ST" "Gas" 0 2,
        g ∈ similar_generators exNoPeer "ST" "Gas" 0 4) ∧
    calculate_avg_heat_rate exNoPeer "ST" "Gas" 0 = technology_mean exNoPeer "ST" :=
  peer_search_monotone_and_fallback exNoPeer "ST" "Gas" 0 2 4 (by norm_num)
    (by decide)

/-! ### "Best Heat Rate": second-smallest monthly ratio, assigned by
label alignment (`scrape.py`, `parse_eia923_data`, lines 981-1002) -/

/-- A pandas float cell as far as the heat-rate ranking observes it:
finite, `inf`, `-inf`, or `nan`. -/
inductive FVal
  | fin (q : ℚ)
  | pinf
  | ninf
  | nan
deriving DecidableEq

/-- pandas float division `elec_mmbtu / netgen` of one month (scrape.py
lines 981-983): the finite quotient when the generation is nonzero, and
`inf`, `-inf` or `nan` (for `0/0`) when it is zero. -/
def fdiv (num den : ℚ) : FVal :=
  if den = 0 then if 0 < num then .pinf else if num < 0 then .ninf else .nan
  else .fin (num / den)

/-- The effect of
`heat_rate_outputs.replace([0, float('inf')], float('nan'))[heat_rate_outputs > 0]`
(scrape.py lines 1000-1002) on one monthly ratio: the replacement turns
an exact zero and `inf` into `nan`, and the mask blanks every entry of
the original frame that is not `> 0`; precisely the strictly positive
finite ratios survive. -/
def keepRatio : FVal → Option ℚ
  | .fin q => if q = 0 then none else if 0 < q then some q else none
  | .pinf => none
  | .ninf => none
  | .nan => none

/-- The strictly positive finite monthly ratios of one record's row, in
row order: what survives the replacement and the mask. -/
def keptRatios (months : List (ℚ × ℚ)) : List ℚ :=
  months.filterMap fun m => keepRatio (fdiv m.1 m.2)

/-- The per-row value of the series built on lines 1000-1002: `np.sort`
orders the twelve masked monthly ratios of a row with the `nan`s last,
and `.iloc[:, 1]` takes position 1 unconditionally — the second-smallest
surviving ratio of that row, `nan` when fewer than two survive.
`np.sort` returns a bare array, so the resulting series carries a fresh
positional index `0..k-1`; which RECORD receives which of these values
is decided by the label alignment of the `.loc` assignment, modelled by
`assign_best_heat_rate` below. -/
def row_best (months : List (ℚ × ℚ)) : Option ℚ :=
  ((keptRatios months).insertionSort (· ≤ ·)).get? 1

/-- `x <= 0` in pandas float semantics, as the negative-ratio filter of
line 990 evaluates it on one monthly ratio: true for a nonpositive
finite value and for `-inf`, false for `inf` and for `nan`. -/
def nonposRatio : FVal → Bool
  | .fin q => decide (q ≤ 0)
  | .pinf => false
  | .ninf => true
  | .nan => false

/-- `(heat_rate_outputs <= 0).filter(regex=r'Heat Rate').all(axis=1)`
(scrape.py line 990): a record is dropped when every one of its twelve
monthly ratios is `<= 0`. -/
def rowAllNonPositive (months : List (ℚ × ℚ)) : Bool :=
  months.all fun m => nonposRatio (fdiv m.1 m.2)

/-- `heat_rate_outputs = heat_rate_outputs[~negative_filter]` (line
994): the surviving records keep their original integer labels — the
index was last reset by the merge of line 959, and this boolean filter
leaves it gapped. -/
def survivors (rows : List (List (ℚ × ℚ))) : List (ℕ × List (ℚ × ℚ)) :=
  rows.enum.filter fun p => ! rowAllNonPositive p.2

/-- The right-hand side of line 1000: one `row_best` value per surviving
record, under a fresh positional index `0..k-1`. -/
def bestSeries (rows : List (List (ℚ × ℚ))) : List (Option ℚ) :=
  (survivors rows).map fun p => row_best p.2

/-- The assignment `heat_rate_outputs.loc[:, 'Best Heat Rate'] = ...`
(lines 1000-1002): pandas aligns the positionally indexed series against
the frame's gapped label index, so the record labelled `L` receives the
series value at positional index `L` — the `row_best` of the `L`-th
SURVIVING record — and `nan` when fewer than `L + 1` records survive.
Labels and positions coincide only when the line-994 filter dropped
nothing. -/
def assign_best_heat_rate (rows : List (List (ℚ × ℚ))) :
    List (ℕ × Option ℚ) :=
  (survivors rows).map fun p => (p.1, ((bestSeries rows).get? p.1).join)

/-- Modelled from the spec: the ranking as claim C3 words it — a month
is excluded iff its net generation is ≤ 0 or its ratio is non-finite, so
a zero ratio (zero fuel over positive generation) stays in the
ranking. -/
def claim_ranked_best_heat_rate (months : List (ℚ × ℚ)) : Option ℚ :=
  ((months.filterMap fun m : ℚ × ℚ =>
      if 0 < m.2 then
        match fdiv m.1 m.2 with
        | .fin q => some q
        | _ => none
      else none).insertionSort (· ≤ ·)).get? 1

/-- The ranking of the amended claim: the strictly positive finite
monthly ratios, in ascending order — exclusion is decided by the sign
and finiteness of the computed ratio, not by the sign of the net
generation alone. -/
def positive_ratio_ranking (months : List (ℚ × ℚ)) : List ℚ :=
  (months.filterMap fun m =>
      match fdiv m.1 m.2 with
      | .fin q => if 0 < q then some q else none
      | _ => none).insertionSort (· ≤ ·)

/-- In a sorted list, the element at position 1 is a member and at most
one element lies strictly below it. -/
theorem countP_lt_of_get?_one {l : List ℚ} {r : ℚ} (hsort : l.Sorted (· ≤ ·))
    (hr : l.get? 1 = some r) :
    r ∈ l ∧ l.countP (fun x => decide (x < r)) ≤ 1 := by
  match l, hsort, hr with
  | [], _, hr => simp at hr
  | [a], _, hr => simp at hr
  | a :: b :: t, hsort, hr =>
    have hb : b = r := by simpa using hr
    subst hb
    have hsort2 := List.sorted_cons.mp hsort
    have hbt : ∀ x ∈ t, b ≤ x := (List.sorted_cons.mp hsort2.2).1
    refine ⟨by simp, ?_⟩
    have ht : t.countP (fun x => decide (x < b)) = 0 := by
      rw [List.countP_eq_zero]
      intro x hx
      simpa using not_lt.mpr (hbt x hx)
    simp only [List.countP_cons, ht, decide_eq_true_eq, lt_self_iff_false,
      if_false]
    split <;> omega

/-- The per-row series value is the second-smallest of the strictly
positive finite ratios of its own row. -/
theorem row_best_eq_ranking (months : List (ℚ × ℚ)) :
    row_best months = (positive_ratio_ranking months).get? 1 := by
  unfold row_best keptRatios positive_ratio_ranking
  congr 2
  apply List.filterMap_congr
  intro m _
  rcases fdiv m.1 m.2 with q | _ | _ | _ <;> simp [keepRatio]
  by_cases hq : q = 0
  · simp [hq]
  · simp [hq]

/-- When the negative-ratio filter drops nothing, labels equal
positions and every record receives its own row value. -/
theorem assign_best_heat_rate_of_no_drop (rows : List (List (ℚ × ℚ)))
    (hnodrop : ∀ r ∈ rows, rowAllNonPositive r = false) :
    assign_best_heat_rate rows =
      rows.enum.map fun p => (p.1, row_best p.2) := by
  have hsurv : survivors rows = rows.enum := by
    rw [survivors, List.filter_eq_self]
    intro p hp
    have hmem : p.2 ∈ rows := by
      rcases p with ⟨i, a⟩
      exact List.getElem?_mem (List.mk_mem_enum_iff_getElem?.mp hp)
    simp [hnodrop p.2 hmem]
  unfold assign_best_heat_rate bestSeries
  rw [hsurv]
  apply List.map_congr_left
  intro p hp
  rcases p with ⟨i, a⟩
  have hia : rows.get? i = some a := by
    rw [List.get?_eq_getElem?]
    exact List.mk_mem_enum_iff_getElem?.mp hp
  have henum : rows.enum.get? i = some (i, a) := by
    rw [List.get?_enum, hia]
    rfl
  show (i, ((rows.enum.map fun p => row_best p.2).get? i).join) = (i, row_best a)
  rw [List.get?_map, henum]
  rfl

/-- C3 (amended): exclusion is decided by the sign and finiteness of the
computed ratio (zero, negative and non-finite ratios are dropped — which
in particular covers every month with net generation ≤ 0); the
positionally indexed series of second-smallest surviving ratios is then
aligned by label against the index left gapped by the negative-ratio
filter, so the record labelled `L` is reported the second-smallest
positive finite ratio of the `L`-th surviving record, and a missing
value when fewer than `L + 1` records survive; whenever the filter drops
no record, labels equal positions and every record is reported the
second-smallest of its own strictly positive finite monthly ratios,
which is one of those ratios with at most one of them strictly below
it. -/
theorem best_heat_rate_spec (rows : List (List (ℚ × ℚ))) :
    ((∀ r ∈ rows, rowAllNonPositive r = false) →
      assign_best_heat_rate rows =
        rows.enum.map fun p => (p.1, (positive_ratio_ranking p.2).get? 1)) ∧
    (∀ p ∈ assign_best_heat_rate rows, ∀ q,
      (survivors rows).get? p.1 = some q →
        p.2 = (positive_ratio_ranking q.2).get? 1) ∧
    (∀ p ∈ assign_best_heat_rate rows,
      (survivors rows).get? p.1 = none → p.2 = none) ∧
    (∀ months r, row_best months = some r →
      r ∈ keptRatios months ∧
      (keptRatios months).countP (fun x => decide (x < r)) ≤ 1) := by
  refine ⟨?_, ?_, ?_, ?_⟩
  · intro hnodrop
    rw [assign_best_heat_rate_of_no_drop rows hnodrop]
    apply List.map_congr_left
    intro p _
    rw [row_best_eq_ranking]
  · intro p hp q hq
    unfold assign_best_heat_rate at hp
    obtain ⟨p0, _, rfl⟩ := List.mem_map.mp hp
    simp only at hq ⊢
    rw [bestSeries, List.get?_map, hq]
    simp [row_best_eq_ranking]
  · intro p hp hq
    unfold assign_best_heat_rate at hp
    obtain ⟨p0, _, rfl⟩ := List.mem_map.mp hp
    simp only at hq ⊢
    rw [bestSeries, List.get?_map, hq]
    rfl
  · intro months r hr
    unfold row_best at hr
    have hperm : ((keptRatios months).insertionSort (· ≤ ·)).Perm
        (keptRatios months) := List.perm_insertionSort _ _
    have hsort : ((keptRatios months).insertionSort (· ≤ ·)).Sorted (· ≤ ·) :=
      List.sorted_insertionSort _ _
    have hml := countP_lt_of_get?_one hsort hr
    exact ⟨hperm.mem_iff.mp hml.1, by rw [← hperm.countP_eq]; exact hml.2⟩

/-- A row with a zero monthly ratio (no fuel, positive generation),
two positive ratios (5 and 7), and nine empty months. -/
def exZeroRatioMonths : List (ℚ × ℚ) :=
  [(0, 100), (500, 100), (700, 100), (0, 0), (0, 0), (0, 0), (0, 0), (0, 0),
   (0, 0), (0, 0), (0, 0), (0, 0)]

/-- Three records: label 0 all-negative (dropped by the line-994
filter), label 1 with no positive ratio, label 2 with positive ratios
5 and 7. -/
def exShiftRows : List (List (ℚ × ℚ)) :=
  [List.replicate 12 (-100, 100), List.replicate 12 (0, 0), exZeroRatioMonths]

/-- C3 (counterexample): two failures of the claimed rule.  On a
one-record frame holding `exZeroRatioMonths` the code reports 7 — the
zero ratio is dropped before ranking — while the claim's
netgen-≤-0-or-non-finite exclusion keeps the zero and predicts 5.  And
on `exShiftRows`, where the negative-ratio filter drops record 0, the
label alignment hands record 1 the value 7 belonging to record 2 and
reports record 2 (claimed value 5) as missing. -/
theorem claim_ranking_counterexample :
    assign_best_heat_rate [exZeroRatioMonths] = [(0, some 7)] ∧
    claim_ranked_best_heat_rate exZeroRatioMonths = some 5 ∧
    assign_best_heat_rate exShiftRows = [(1, some 7), (2, none)] ∧
    claim_ranked_best_heat_rate (exShiftRows.getD 2 []) = some 5 := by
  refine ⟨by decide, by decide, by decide, by decide⟩

/-- Witness for C3 (amended) at concrete inputs: with no dropped record
the one record receives its own ranking value, and 7 is a surviving
ratio of `exZeroRatioMonths` with at most one surviving ratio below
it. -/
theorem best_heat_rate_spec_witness :
    assign_best_heat_rate [exZeroRatioMonths] =
      [exZeroRatioMonths].enum.map
        (fun p => (p.1, (positive_ratio_ranking p.2).get? 1)) ∧
    ((7 : ℚ) ∈ keptRatios exZeroRatioMonths ∧
      (keptRatios exZeroRatioMonths).countP (fun x => decide (x < 7)) ≤ 1) :=
  ⟨(best_heat_rate_spec [exZeroRatioMonths]).1 (by decide),
   (best_heat_rate_spec [exZeroRatioMonths]).2.2.2 exZeroRatioMonths 7 (by decide)⟩

/-- C10 (amended): when the negative-ratio filter drops no record,
labels equal positions, and a record with fewer than two strictly
positive finite monthly ratios is reported a missing `Best Heat Rate`
(`nan`), not a number and not an error: its non-survivors are turned
into missing values before sorting and position 1 of its sorted row is
taken unconditionally.  (When the filter does drop a record, the label
alignment can hand such a record another record's number — see the
counterexample.) -/
theorem best_heat_rate_of_few_ratios (rows : List (List (ℚ × ℚ)))
    (hnodrop : ∀ r ∈ rows, rowAllNonPositive r = false)
    (L : ℕ) (months : List (ℚ × ℚ)) (hLm : rows.get? L = some months)
    (hfew : (keptRatios months).length < 2) :
    (assign_best_heat_rate rows).get? L = some (L, none) := by
  rw [assign_best_heat_rate_of_no_drop rows hnodrop, List.get?_map,
    List.get?_enum, hLm]
  have hnone : row_best months = none := by
    unfold row_best
    rw [List.get?_eq_none, List.length_insertionSort]
    omega
  simp [hnone]

/-- Three records: label 0 all-negative (dropped), label 1 with no
positive ratio, label 2 with positive ratios 3 and 9. -/
def exDropShiftRows : List (List (ℚ × ℚ)) :=
  [List.replicate 12 (-2, 1), List.replicate 12 (0, 0),
   [(3, 1), (9, 1)] ++ List.replicate 10 (0, 0)]

/-- C10 (counterexample): on `exDropShiftRows` the record labelled 1 has
zero strictly positive finite monthly ratios, yet its reported `Best
Heat Rate` is the number 9 — record 2's second-smallest ratio, received
through the label alignment after the filter dropped record 0. -/
theorem claim_few_ratios_counterexample :
    (keptRatios (exDropShiftRows.getD 1 [])).length = 0 ∧
    (assign_best_heat_rate exDropShiftRows).get? 0 = some (1, some 9) := by
  constructor <;> decide

/-- Twelve months with neither fuel consumption nor generation. -/
def exAllZeroMonths : List (ℚ × ℚ) := List.replicate 12 (0, 0)

/-- Witness for C10 (amended) at a concrete input: a one-record frame
(nothing dropped) whose record has an all-empty year is reported a
missing best heat rate. -/
theorem best_heat_rate_of_few_ratios_witness :
    (assign_best_heat_rate [exAllZeroMonths]).get? 0 = some (0, none) :=
  best_heat_rate_of_few_ratios [exAllZeroMonths] (by decide) 0 exAllZeroMonths
    (by decide) (by decide)

/-! ### Outlier clamp (winsorization)
(`database_interface.py`, `assign_heat_rates_to_projects`, lines 432-445) -/

/-- Placeholder row used as the default of safe list indexing; winsorize
never produces it on the inputs it is given. -/
def defaultTGen : TGen := ⟨"", "", 0, 0⟩

/-- `thermal_gens_w_hr.sort_values('Best Heat Rate')` (line 435): the rows
of the frame sorted ascending by heat rate. -/
def winsorizeSorted (l : List TGen) : List TGen :=
  l.insertionSort fun a b => a.bestHeatRate ≤ b.bestHeatRate

/-- `n_outliers = int(len(thermal_gens_w_hr)*0.005)` (line 434):
`0.005 = 1/200`, and `int` truncates. -/
def nOutliers (l : List TGen) : Nat := l.length / 200

/-- `min_hr` (line 436): the heat rate at sorted position `n_outliers`. -/
def minHrOf (l : List TGen) : ℚ :=
  ((winsorizeSorted l).getD (nOutliers l) defaultTGen).bestHeatRate

/-- `max_hr` (line 437): the heat rate at sorted position
`len - 1 - n_outliers`. -/
def maxHrOf (l : List TGen) : ℚ :=
  ((winsorizeSorted l).getD (l.length - 1 - nOutliers l) defaultTGen).bestHeatRate

/-- The clamping loop of lines 443-445: in the sorted frame, the heat
rates at positions `0 .. n_outliers-1` are overwritten with `min_hr` and
those at positions `len-n_outliers .. len-1` with `max_hr`; no row is
removed and no other column is touched.  (On an empty frame the source's
positional indexing would fault; the embedding maps it to itself.) -/
def winsorize (l : List TGen) : List TGen :=
  (winsorizeSorted l).enum.map fun p =>
    if p.1 < nOutliers l then { p.2 with bestHeatRate := minHrOf l }
    else if l.length - nOutliers l ≤ p.1 then { p.2 with bestHeatRate := maxHrOf l }
    else p.2

/-- The sorted positions whose value the clamp actually changed. -/
def winsorizeAltered (l : List TGen) : Finset ℕ :=
  (Finset.range l.length).filter fun i =>
    (winsorize l).getD i defaultTGen ≠ (winsorizeSorted l).getD i defaultTGen

instance : IsTotal TGen fun a b => a.bestHeatRate ≤ b.bestHeatRate :=
  ⟨fun a b => le_total a.bestHeatRate b.bestHeatRate⟩

instance : IsTrans TGen fun a b => a.bestHeatRate ≤ b.bestHeatRate :=
  ⟨fun _ _ _ hab hbc => le_trans hab hbc⟩

theorem winsorizeSorted_length (l : List TGen) :
    (winsorizeSorted l).length = l.length :=
  List.length_insertionSort _ _

theorem winsorize_length (l : List TGen) : (winsorize l).length = l.length := by
  simp [winsorize, winsorizeSorted_length]

theorem winsorizeSorted_perm (l : List TGen) : (winsorizeSorted l).Perm l :=
  List.perm_insertionSort _ _

theorem winsorizeSorted_sorted (l : List TGen) :
    (winsorizeSorted l).Sorted fun a b => a.bestHeatRate ≤ b.bestHeatRate :=
  List.sorted_insertionSort _ _

theorem nOutliers_lt (l : List TGen) (hne : l ≠ []) : nOutliers l < l.length := by
  have : 0 < l.length := List.length_pos.mpr hne
  exact Nat.div_lt_self this (by norm_num)

theorem two_nOutliers_le (l : List TGen) (hne : l ≠ []) :
    2 * nOutliers l ≤ l.length - 1 := by
  have : 0 < l.length := List.length_pos.mpr hne
  have h := Nat.div_mul_le_self l.length 200
  unfold nOutliers
  omega

theorem getElem_winsorize (l : List TGen) (i : Nat) (hi : i < (winsorize l).length)
    (hi' : i < (winsorizeSorted l).length) :
    (winsorize l).get ⟨i, hi⟩ =
      (if i < nOutliers l then
        { (winsorizeSorted l).get ⟨i, hi'⟩ with bestHeatRate := minHrOf l }
      else if l.length - nOutliers l ≤ i then
        { (winsorizeSorted l).get ⟨i, hi'⟩ with bestHeatRate := maxHrOf l }
      else (winsorizeSorted l).get ⟨i, hi'⟩) := by
  simp only [winsorize, List.get_eq_getElem, List.getElem_map, List.getElem_enum]

theorem getD_of_lt {α : Type} (l : List α) (d : α) (i : Nat) (h : i < l.length) :
    l.getD i d = l.get ⟨i, h⟩ := by
  simp [List.getD_eq_getElem?_getD, List.getElem?_eq_getElem h]

/-- The sorted list is monotone position-wise. -/
theorem winsorizeSorted_le (l : List TGen) {i j : Nat} (hij : i ≤ j)
    (hj : j < (winsorizeSorted l).length) :
    ((winsorizeSorted l).get ⟨i, lt_of_le_of_lt hij hj⟩).bestHeatRate ≤
      ((winsorizeSorted l).get ⟨j, hj⟩).bestHeatRate := by
  rcases Nat.eq_or_lt_of_le hij with rfl | hlt
  · exact le_refl _
  · have := (List.pairwise_iff_getElem.mp (winsorizeSorted_sorted l)) i j
      (lt_of_le_of_lt hij hj) hj hlt
    simpa using this

/-- C5 (amended): winsorization sorts the heat rates ascending and
overwrites the `floor(N*0.005)` positions at each end with the values at
the 0.5th / 99.5th percentile boundaries, so that the row count is
unchanged, no resulting value lies strictly below the lower boundary
value, and the number of values actually changed is at most
`2*floor(N*0.005)` — with equality whenever the `N` heat rates are
pairwise distinct, but not in general: ties straddling a boundary are
overwritten with their own value (see the counterexample). -/
theorem winsorize_spec (l : List TGen) (hne : l ≠ []) :
    (winsorize l).length = l.length ∧
    (winsorize l).countP (fun g => decide (g.bestHeatRate < minHrOf l)) = 0 ∧
    (winsorizeAltered l).card ≤ 2 * nOutliers l ∧
    ((l.map (·.bestHeatRate)).Nodup →
      (winsorizeAltered l).card = 2 * nOutliers l) := by
  have hlen : (winsorizeSorted l).length = l.length := winsorizeSorted_length l
  have hwlen : (winsorize l).length = l.length := winsorize_length l
  have hpos : 0 < l.length := List.length_pos.mpr hne
  have hn : nOutliers l < l.length := nOutliers_lt l hne
  have h2n : 2 * nOutliers l ≤ l.length - 1 := two_nOutliers_le l hne
  -- the value of `winsorize l` at any position, as three cases
  have hval : ∀ i (hi : i < l.length),
      (winsorize l).get ⟨i, by omega⟩ =
        (if i < nOutliers l then
          { (winsorizeSorted l).get ⟨i, by omega⟩ with bestHeatRate := minHrOf l }
        else if l.length - nOutliers l ≤ i then
          { (winsorizeSorted l).get ⟨i, by omega⟩ with bestHeatRate := maxHrOf l }
        else (winsorizeSorted l).get ⟨i, by omega⟩) := by
    intro i hi
    exact getElem_winsorize l i (by omega) (by omega)
  have hminmem : minHrOf l =
      ((winsorizeSorted l).get ⟨nOutliers l, by omega⟩).bestHeatRate := by
    unfold minHrOf
    exact congrArg _ (getD_of_lt _ _ _ (by omega))
  have hmaxmem : maxHrOf l =
      ((winsorizeSorted l).get ⟨l.length - 1 - nOutliers l, by omega⟩).bestHeatRate := by
    unfold maxHrOf
    exact congrArg _ (getD_of_lt _ _ _ (by omega))
  have hminmax : minHrOf l ≤ maxHrOf l := by
    rw [hminmem, hmaxmem]
    exact winsorizeSorted_le l (by omega) (by omega)
  -- every value of the output is at least the lower boundary
  have hlow : ∀ g ∈ winsorize l, minHrOf l ≤ g.bestHeatRate := by
    intro g hg
    rcases List.mem_iff_get.mp hg with ⟨⟨i, hi⟩, rfl⟩
    rw [hval i (by omega)]
    split
    · simp
    · split
      · simpa using hminmax
      · rw [hminmem]
        exact winsorizeSorted_le l (by omega) (by omega)
  refine ⟨hwlen, ?_, ?_, ?_⟩
  · rw [List.countP_eq_zero]
    intro g hg
    simpa using not_lt.mpr (hlow g hg)
  · -- positions outside the two clamped ranges are unchanged
    apply le_trans (Finset.card_le_card (t :=
      (Finset.range (nOutliers l)) ∪
        (Finset.Ico (l.length - nOutliers l) l.length) ) ?_)
    · apply le_trans (Finset.card_union_le _ _)
      rw [Finset.card_range, Nat.card_Ico]
      omega
    · intro i hi
      rw [winsorizeAltered, Finset.mem_filter, Finset.mem_range] at hi
      obtain ⟨hilen, hne'⟩ := hi
      by_contra hmid
      rw [Finset.mem_union, Finset.mem_range, Finset.mem_Ico] at hmid
      push_neg at hmid
      apply hne'
      rw [getD_of_lt _ _ _ (by omega), getD_of_lt _ _ _ (by omega), hval i hilen]
      have h1 : ¬ i < nOutliers l := by omega
      have h2 : ¬ l.length - nOutliers l ≤ i := by omega
      simp [h1, h2]
  · intro hnd
    -- with pairwise distinct heat rates both clamped ranges change their rows
    have hndS : ((winsorizeSorted l).map (·.bestHeatRate)).Nodup :=
      ((winsorizeSorted_perm l).map (·.bestHeatRate)).nodup_iff.mpr hnd
    have hgetne : ∀ i j : Nat, ∀ hi : i < l.length, ∀ hj : j < l.length, i ≠ j →
        ((winsorizeSorted l).get ⟨i, by omega⟩).bestHeatRate ≠
          ((winsorizeSorted l).get ⟨j, by omega⟩).bestHeatRate := by
      intro i j hi hj hij he
      apply hij
      have hi' : i < ((winsorizeSorted l).map (·.bestHeatRate)).length := by
        simpa [hlen] using hi
      have hj' : j < ((winsorizeSorted l).map (·.bestHeatRate)).length := by
        simpa [hlen] using hj
      have hmap : ((winsorizeSorted l).map (·.bestHeatRate)).get ⟨i, hi'⟩ =
          ((winsorizeSorted l).map (·.bestHeatRate)).get ⟨j, hj'⟩ := by
        simp only [List.get_eq_getElem, List.getElem_map]
        exact he
      exact congrArg Fin.val ((List.Nodup.get_inj_iff hndS).mp hmap)
    have hset : winsorizeAltered l =
        (Finset.range (nOutliers l)) ∪
          (Finset.Ico (l.length - nOutliers l) l.length) := by
      apply Finset.Subset.antisymm
      · intro i hi
        rw [winsorizeAltered, Finset.mem_filter, Finset.mem_range] at hi
        obtain ⟨hilen, hne'⟩ := hi
        by_contra hmid
        rw [Finset.mem_union, Finset.mem_range, Finset.mem_Ico] at hmid
        push_neg at hmid
        apply hne'
        rw [getD_of_lt _ _ _ (by omega), getD_of_lt _ _ _ (by omega), hval i hilen]
        have h1 : ¬ i < nOutliers l := by omega
        have h2 : ¬ l.length - nOutliers l ≤ i := by omega
        simp [h1, h2]
      · intro i hi
        rw [Finset.mem_union, Finset.mem_range, Finset.mem_Ico] at hi
        have hilen : i < l.length := by rcases hi with h | h <;> omega
        rw [winsorizeAltered, Finset.mem_filter, Finset.mem_range]
        refine ⟨hilen, ?_⟩
        rw [getD_of_lt _ _ _ (by omega), getD_of_lt _ _ _ (by omega), hval i hilen]
        rcases hi with h | h
        · have h1 : i < nOutliers l := h
          simp only [h1, if_true]
          intro he
          have hhr := congrArg TGen.bestHeatRate he
          simp only [hminmem] at hhr
          exact hgetne (nOutliers l) i (by omega) hilen (by omega) hhr
        · have h1 : ¬ i < nOutliers l := by omega
          have h2 : l.length - nOutliers l ≤ i := h.1
          simp only [h1, if_false, h2, if_true]
          intro he
          have hhr := congrArg TGen.bestHeatRate he
          simp only [hmaxmem] at hhr
          exact hgetne (l.length - 1 - nOutliers l) i (by omega) hilen (by omega) hhr
    rw [hset, Finset.card_union_of_disjoint, Finset.card_range, Nat.card_Ico]
    · omega
    · rw [Finset.disjoint_left]
      intro i hi1 hi2
      rw [Finset.mem_range] at hi1
      rw [Finset.mem_Ico] at hi2
      omega

/-- 200 rows with one and the same heat rate: `n_outliers = 1`, but the
boundary values equal the tail values, so the clamp changes nothing. -/
def exTieRows : List TGen := List.replicate 200 ⟨"ST", "Gas", 2000, 10⟩

/-- C5 (counterexample): on 200 equal heat rates winsorization alters 0
values, not `2*floor(200*0.005) = 2`: with ties at the boundary the
overwritten positions already hold the boundary value. -/
theorem claim_winsorize_count_counterexample :
    winsorize exTieRows = exTieRows ∧
    (winsorizeAltered exTieRows).card = 0 ∧
    2 * nOutliers exTieRows = 2 := by
  have h1 : winsorize exTieRows = exTieRows := by decide
  have h2 : winsorizeSorted exTieRows = exTieRows := by decide
  refine ⟨h1, ?_, by decide⟩
  unfold winsorizeAltered
  rw [h1, h2]
  simp

/-- Two rows with distinct valid heat rates. -/
def exTwoRows : List TGen := [⟨"ST", "Gas", 2000, 9⟩, ⟨"GT", "Gas", 2001, 8⟩]

/-- Witness for C5 (amended) at a concrete input. -/
theorem winsorize_spec_witness :
    (winsorize exTwoRows).length = exTwoRows.length ∧
    (winsorize exTwoRows).countP
      (fun g => decide (g.bestHeatRate < minHrOf exTwoRows)) = 0 ∧
    (winsorizeAltered exTwoRows).card ≤ 2 * nOutliers exTwoRows ∧
    ((exTwoRows.map (·.bestHeatRate)).Nodup →
      (winsorizeAltered exTwoRows).card = 2 * nOutliers exTwoRows) :=
  winsorize_spec exTwoRows (by decide)

/-! ### Heat-rate assignment: band splitting, clamp, substitution
(`database_interface.py`, `assign_heat_rates_to_projects`, lines 406-481) -/

/-- One row of `thermal_gens` as parsed: the measured `Best Heat Rate`
may be missing. -/
structure PRow where
  primeMover : String
  energySource : String
  operatingYear : Int
  bestHeatRate : Option ℚ
deriving DecidableEq

/-- The `unrealistic_heat_rates` test of lines 409-413: coal below
8.607, any other fuel below 6.711, or anything above 100. -/
def unrealistic (es : String) (q : ℚ) : Bool :=
  decide ((es = "Coal" ∧ q < 8607/1000) ∨ (es ≠ "Coal" ∧ q < 6711/1000) ∨ 100 < q)

/-- `thermal_gens_w_hr` (line 418): the rows with a present, plausible
measured heat rate. -/
def validRows (rows : List PRow) : List TGen :=
  rows.filterMap fun r =>
    match r.bestHeatRate with
    | none => none
    | some q =>
      if unrealistic r.energySource q then none
      else some ⟨r.primeMover, r.energySource, r.operatingYear, q⟩

/-- `thermal_gens_wo_hr` (line 419): the rows with a missing or
implausible measured heat rate. -/
def invalidRows (rows : List PRow) : List PRow :=
  rows.filter fun r =>
    match r.bestHeatRate with
    | none => true
    | some q => unrealistic r.energySource q

/-- One row of the resulting `thermal_gens` (line 481), reduced to what
the claims observe: fuel, final heat rate, and whether the value is the
(clamped) measured one or a substitute. -/
structure ORow where
  energySource : String
  bestHeatRate : Option ℚ
  measured : Bool
deriving DecidableEq

/-- Lines 406-481 of `assign_heat_rates_to_projects`: split the rows on
the plausibility band, winsorize the kept measured values, fill every
dropped row through `calculate_avg_heat_rate` over the winsorized kept
rows, and concatenate (`pd.concat([thermal_gens_w_hr, thermal_gens_wo_hr])`). -/
def assign_heat_rates (rows : List PRow) : List ORow :=
  let w := winsorize (validRows rows)
  (w.map fun g => ORow.mk g.energySource (some g.bestHeatRate) true) ++
    (invalidRows rows).map fun r =>
      ORow.mk r.energySource
        (calculate_avg_heat_rate w r.primeMover r.energySource r.operatingYear)
        false

theorem validRows_band (rows : List PRow) :
    ∀ t ∈ validRows rows, 6711/1000 ≤ t.bestHeatRate ∧ t.bestHeatRate ≤ 100 := by
  intro t ht
  rw [validRows, List.mem_filterMap] at ht
  obtain ⟨r, _, hr⟩ := ht
  rcases hq : r.bestHeatRate with _ | q
  · rw [hq] at hr; simp at hr
  · rw [hq] at hr
    simp only at hr
    rcases hu : unrealistic r.energySource q with _ | _
    · rw [hu, if_neg (by simp)] at hr
      cases hr
      simp only [unrealistic, decide_eq_false_iff_not, not_or, not_and_or] at hu
      obtain ⟨h1, h2, h3⟩ := hu
      push_neg at h1 h2 h3
      constructor
      · by_cases hc : r.energySource = "Coal"
        · have := h1.resolve_left (by simpa using hc)
          have hcc : (6711:ℚ)/1000 ≤ 8607/1000 := by norm_num
          simp only
          exact le_trans hcc this
        · simpa using h2.resolve_left (by simpa using hc)
      · simpa using h3
    · rw [hu] at hr; simp at hr

/-- Every output row of the clamp keeps the non-heat-rate columns of one
input row and takes its heat rate from one (possibly different) input
row. -/
theorem winsorize_members (l : List TGen) :
    ∀ g ∈ winsorize l,
      (∃ t ∈ l, g.primeMover = t.primeMover ∧ g.energySource = t.energySource ∧
        g.operatingYear = t.operatingYear) ∧
      ∃ t2 ∈ l, g.bestHeatRate = t2.bestHeatRate := by
  intro g hg
  have hne : l ≠ [] := by
    rintro rfl
    rw [show winsorize [] = [] from by decide] at hg
    exact absurd hg (List.not_mem_nil g)
  have hlen : (winsorizeSorted l).length = l.length := winsorizeSorted_length l
  have hn : nOutliers l < l.length := nOutliers_lt l hne
  have hperm := winsorizeSorted_perm l
  have hmemS : ∀ i (hi : i < (winsorizeSorted l).length),
      (winsorizeSorted l).get ⟨i, hi⟩ ∈ l := fun i hi =>
    hperm.mem_iff.mp (List.get_mem _ _ _)
  rcases List.mem_iff_get.mp hg with ⟨⟨i, hi⟩, rfl⟩
  have hi' : i < l.length := by
    rw [winsorize_length] at hi
    exact hi
  rw [getElem_winsorize l i hi (by omega)]
  split
  · refine ⟨⟨(winsorizeSorted l).get ⟨i, by omega⟩, hmemS i (by omega), by simp⟩, ?_⟩
    refine ⟨(winsorizeSorted l).get ⟨nOutliers l, by omega⟩, hmemS _ (by omega), ?_⟩
    simp only [minHrOf]
    rw [getD_of_lt _ _ _ (by omega)]
  · split
    · refine ⟨⟨(winsorizeSorted l).get ⟨i, by omega⟩, hmemS i (by omega), by simp⟩, ?_⟩
      refine ⟨(winsorizeSorted l).get ⟨l.length - 1 - nOutliers l, by omega⟩,
        hmemS _ (by omega), ?_⟩
      simp only [maxHrOf]
      rw [getD_of_lt _ _ _ (by omega)]
    · exact ⟨⟨(winsorizeSorted l).get ⟨i, by omega⟩, hmemS i (by omega), by simp⟩,
        (winsorizeSorted l).get ⟨i, by omega⟩, hmemS i (by omega), rfl⟩

/-- C4 (amended): every measured value of the final output lies within
[6.711, 100] — a parsed value outside its fuel's band is never kept as
measured data, and each measured output row descends from an input row
of the same fuel whose parsed value passed its own band (so a measured
Coal row was parsed within [8.607, 100]).  The measured output VALUE of
a Coal row, however, is only guaranteed to lie in [6.711, 100]: the
winsorization clamp can overwrite a Coal tail value with a boundary
value contributed by a non-coal unit (see the counterexample). -/
theorem assign_heat_rates_measured_band (rows : List PRow) (o : ORow)
    (ho : o ∈ assign_heat_rates rows) (hm : o.measured = true) :
    (∃ q, o.bestHeatRate = some q ∧ 6711/1000 ≤ q ∧ q ≤ 100) ∧
    (∃ r ∈ rows, r.energySource = o.energySource ∧
      ∃ q0, r.bestHeatRate = some q0 ∧ unrealistic r.energySource q0 = false) := by
  rw [assign_heat_rates, List.mem_append] at ho
  rcases ho with ho | ho
  swap
  · rw [List.mem_map] at ho
    obtain ⟨r, _, rfl⟩ := ho
    simp at hm
  rw [List.mem_map] at ho
  obtain ⟨g, hg, rfl⟩ := ho
  obtain ⟨⟨t, htmem, _, hes, _⟩, t2, ht2mem, hhr⟩ :=
    winsorize_members (validRows rows) g hg
  have hband := validRows_band rows t2 ht2mem
  constructor
  · exact ⟨g.bestHeatRate, rfl, by rw [hhr]; exact hband.1, by rw [hhr]; exact hband.2⟩
  · rw [validRows, List.mem_filterMap] at htmem
    obtain ⟨r, hrmem, hr⟩ := htmem
    rcases hq : r.bestHeatRate with _ | q
    · rw [hq] at hr; simp at hr
    · rw [hq] at hr
      simp only at hr
      rcases hu : unrealistic r.energySource q with _ | _
      · rw [hu, if_neg (by simp)] at hr
        cases hr
        exact ⟨r, hrmem, by simpa using hes.symm, q, hq, hu⟩
      · rw [hu] at hr; simp at hr

/-- 199 gas units at heat rate 7 and one coal unit at heat rate 50; all
200 parsed values pass their band, `n_outliers = 1`. -/
def exCoalTail : List PRow :=
  List.replicate 199 ⟨"ST", "Gas", 2000, some 7⟩ ++ [⟨"ST", "Coal", 2000, some 50⟩]

/-- C4 (counterexample): on `exCoalTail` the coal unit is the top tail
row, and the upper clamp overwrites its measured heat rate with the
99.5th-percentile boundary 7 — a gas value below the coal floor 8.607 —
while the row stays measured: a measured Coal output value outside
[8.607, 100] exists. -/
theorem claim_coal_band_counterexample :
    (assign_heat_rates exCoalTail).any (fun o =>
      o.measured && o.energySource == "Coal" && o.bestHeatRate == some 7) = true ∧
    ((7:ℚ) < 8607/1000) := by
  constructor <;> decide

/-- One gas unit with a plausible measured heat rate. -/
def exOneGas : List PRow := [⟨"ST", "Gas", 2000, some 7⟩]

/-- Witness for C4 (amended) at a concrete input. -/
theorem assign_heat_rates_measured_band_witness :
    (∃ q, (ORow.mk "Gas" (some 7) true).bestHeatRate = some q ∧
      6711/1000 ≤ q ∧ q ≤ 100) ∧
    (∃ r ∈ exOneGas, r.energySource = (ORow.mk "Gas" (some 7) true).energySource ∧
      ∃ q0, r.bestHeatRate = some q0 ∧ unrealistic r.energySource q0 = false) :=
  assign_heat_rates_measured_band exOneGas (ORow.mk "Gas" (some 7) true)
    (by decide) (by decide)

/-! ### Unique placeholders for missing grouping keys
(`scrape.py`, `parse_eia860_data` lines 397-406 and
`parse_most_recent_eia860M_data` lines 583-591) -/

/-- Decimal value of a digit character. -/
def digitVal (c : Char) : ℕ := c.toNat - 48

/-- Value of a decimal digit string. -/
def digitsVal : List Char → ℕ
  | [] => 0
  | c :: cs => digitVal c * 10 ^ cs.length + digitsVal cs

theorem digitVal_digitChar (d : ℕ) (hd : d < 10) :
    digitVal (Nat.digitChar d) = d := by
  interval_cases d <;> rfl

theorem digitsVal_toDigitsCore :
    ∀ (fuel n : ℕ) (ds : List Char), n < 10 ^ fuel →
      digitsVal (Nat.toDigitsCore 10 fuel n ds) =
        n * 10 ^ ds.length + digitsVal ds := by
  intro fuel
  induction fuel with
  | zero =>
    intro n ds h
    have hn : n = 0 := by simpa using h
    subst hn
    simp [Nat.toDigitsCore]
  | succ fuel ih =>
    intro n ds h
    simp only [Nat.toDigitsCore]
    by_cases h0 : n / 10 = 0
    · have hn10 : n < 10 := by omega
      have hmod : n % 10 = n := by omega
      simp only [h0, if_pos]
      show digitVal (Nat.digitChar (n % 10)) * 10 ^ ds.length + digitsVal ds = _
      rw [digitVal_digitChar (n % 10) (by omega), hmod]
    · simp only [h0, if_neg, if_false]
      have hdivlt : n / 10 < 10 ^ fuel := by
        rw [Nat.div_lt_iff_lt_mul (by norm_num)]
        calc n < 10 ^ (fuel + 1) := h
        _ = 10 ^ fuel * 10 := by rw [pow_succ]
      rw [ih (n / 10) (Nat.digitChar (n % 10) :: ds) hdivlt]
      show n / 10 * 10 ^ (ds.length + 1) +
        (digitVal (Nat.digitChar (n % 10)) * 10 ^ ds.length + digitsVal ds) = _
      rw [digitVal_digitChar (n % 10) (by omega)]
      have hkey : n / 10 * 10 ^ (ds.length + 1) + n % 10 * 10 ^ ds.length =
          n * 10 ^ ds.length := by
        have hdm : 10 * (n / 10) + n % 10 = n := Nat.div_add_mod n 10
        calc n / 10 * 10 ^ (ds.length + 1) + n % 10 * 10 ^ ds.length
            = (10 * (n / 10) + n % 10) * 10 ^ ds.length := by ring
        _ = n * 10 ^ ds.length := by rw [hdm]
      omega

theorem digitsVal_toDigits (n : ℕ) : digitsVal (Nat.toDigits 10 n) = n := by
  have h : n < 10 ^ (n + 1) :=
    lt_of_lt_of_le (Nat.lt_pow_self (by norm_num) n)
      (Nat.pow_le_pow_right (by norm_num) (Nat.le_succ n))
  have := digitsVal_toDigitsCore (n + 1) n [] h
  simpa [Nat.toDigits, digitsVal] using this

/-- Decimal printing of naturals is injective. -/
theorem natRepr_injective : Function.Injective Nat.repr := by
  intro m n h
  have hdata : Nat.toDigits 10 m = Nat.toDigits 10 n := by
    have := congrArg String.data h
    simpa [Nat.repr, List.asString] using this
  have := congrArg digitsVal hdata
  rwa [digitsVal_toDigits, digitsVal_toDigits] at this

/-- A grouping-key cell payload: the numeric (float64) or string value
pandas stores, or missing. -/
inductive Val
  | num (q : ℚ)
  | str (s : String)
deriving DecidableEq

/-- The placeholder that `fillna` writes into the row with index label
`i` of a key column (scrape.py lines 399-405): `10000000 + i` for a
float64 column and `'None' + str(i)` otherwise.  The fill dictionary is
keyed by the frame's index labels, so uniqueness is per label: two rows
that share a label (possible right after `append`) would share their
placeholders. -/
def fillPlaceholder (isFloat : Bool) (i : ℕ) : Val :=
  if isFloat then .num ((10000000 + i : ℕ) : ℚ)
  else .str ("None" ++ Nat.repr i)

/-- One cell after the fill: a present value stays, a missing one gets
the placeholder of its column's dtype for the row's index label `i`. -/
def fillCell (isFloat : String → Bool) (i : ℕ) (c : String)
    (cell : Option Val) : Val :=
  match cell with
  | some v => v
  | none => fillPlaceholder (isFloat c) i

/-- The grouping key of the row with index label `i` for the key columns
`aggList`, as `generators.groupby(agg_list)` sees it after the fill
(scrape.py line 406): two rows fall into the same group iff their keys
are equal. -/
def groupKey (isFloat : String → Bool) (aggList : List String) (i : ℕ)
    (row : String → Option Val) : List Val :=
  aggList.map fun c => fillCell isFloat i c (row c)

theorem fillPlaceholder_injective (b : Bool) {i j : ℕ} (hij : i ≠ j) :
    fillPlaceholder b i ≠ fillPlaceholder b j := by
  cases b
  · intro he
    apply hij
    have he2 : ("None" ++ Nat.repr i) = ("None" ++ Nat.repr j) := by
      simpa [fillPlaceholder] using he
    have hdata := congrArg String.data he2
    simp only [String.data_append] at hdata
    exact natRepr_injective (String.ext (List.append_cancel_left hdata))
  · intro he
    apply hij
    have he2 : ((10000000 + i : ℕ) : ℚ) = ((10000000 + j : ℕ) : ℚ) := by
      simpa [fillPlaceholder] using he
    have : (10000000 + i : ℕ) = 10000000 + j := Nat.cast_injective he2
    omega

/-- C6 (amended): after the fill, two rows with distinct index labels
that are both missing a value in the same key column receive distinct
synthetic placeholders there, so the aggregation never merges them into
one group.  (Rows missing values in two different key columns can still
merge when a genuine key value coincides with the other row's
placeholder — see the counterexample.) -/
theorem fill_same_missing_key_not_merged (isFloat : String → Bool)
    (aggList : List String) (i j : ℕ) (rowi rowj : String → Option Val)
    (c : String) (hc : c ∈ aggList) (hij : i ≠ j)
    (hmi : rowi c = none) (hmj : rowj c = none) :
    groupKey isFloat aggList i rowi ≠ groupKey isFloat aggList j rowj := by
  intro he
  have hcell := (List.map_eq_map_iff.mp he) c hc
  rw [hmi, hmj] at hcell
  simp only [fillCell] at hcell
  exact fillPlaceholder_injective (isFloat c) hij hcell

/-- A row missing `Plant Code` whose genuine `Operating Year` equals the
placeholder of row 1. -/
def exRowA : String → Option Val := fun c =>
  if c = "Plant Code" then none
  else if c = "Operating Year" then some (.num 10000001) else none

/-- A row missing `Operating Year` whose genuine `Plant Code` equals the
placeholder of row 0. -/
def exRowB : String → Option Val := fun c =>
  if c = "Plant Code" then some (.num 10000000)
  else if c = "Operating Year" then none else none

/-- Two of the grouping-key columns of `gen_aggregation_lists`; both are
float64 in the source frame. -/
def exKeyCols : List String := ["Plant Code", "Operating Year"]

/-- C6 (counterexample): rows 0 and 1 are distinct and each misses a key
field (in different columns), yet after the fill both carry the key
`(10000000, 10000001)` — row 0's `Plant Code` placeholder collides with
row 1's genuine value and vice versa — so the aggregation merges them. -/
theorem claim_unique_placeholder_counterexample :
    exRowA "Plant Code" = none ∧ exRowB "Operating Year" = none ∧
    exRowA "Plant Code" ≠ exRowB "Plant Code" ∧
    groupKey (fun _ => true) exKeyCols 0 exRowA =
      groupKey (fun _ => true) exKeyCols 1 exRowB := by
  refine ⟨rfl, rfl, by simp [exRowA, exRowB], by decide⟩

/-- Two rows both missing the string-typed key column `Unit Code`. -/
def exRowC : String → Option Val := fun _ => none

/-- Witness for C6 (amended) at a concrete input: two rows missing the
same string key column get different keys. -/
theorem fill_same_missing_key_not_merged_witness :
    groupKey (fun _ => false) ["Unit Code"] 0 exRowC ≠
      groupKey (fun _ => false) ["Unit Code"] 1 exRowC :=
  fill_same_missing_key_not_merged (fun _ => false) ["Unit Code"] 0 1 exRowC
    exRowC "Unit Code" (by decide) (by decide) rfl rfl

/-! ### Retirement netting
(`database_interface.py`, `upload_generation_projects`, lines 750-766) -/

/-- The per-row effect of lines 753-763: the left join yields the
matched retired capacity (`none` models the NaN of an unmatched row);
`net_operating_capacity_limit_mw = nameplate - retired`; rows with net
exactly 0 are dropped (`NaN != 0` keeps unmatched rows); then
`np.where(net > 0, net, nameplate)` replaces the nameplate with the net
capacity only when it is positive.  Returns `none` for a dropped row,
otherwise the final nameplate capacity together with the net column. -/
def net_retirement (nameplate : ℚ) (retired : Option ℚ) :
    Option (ℚ × Option ℚ) :=
  let net : Option ℚ := retired.map fun r => nameplate - r
  if net = some 0 then none
  else
    some (match net with
          | some q => if 0 < q then q else nameplate
          | none => nameplate,
          net)

/-- C7: netting retired capacity — a 100 MW unit with a 40 MW retired
match is kept at 60 MW; one whose full 100 MW is matched retired is
dropped; and whenever more capacity is retired than exists the row is
kept, its nameplate capacity is left uncorrected, and the negative net
value remains recorded in the `net_operating_capacity_limit_mw` column
(the inconsistency flag written to the diagnostic output). -/
theorem net_retirement_spec (c r : ℚ) (hneg : c - r < 0) :
    net_retirement 100 (some 40) = some (60, some 60) ∧
    net_retirement 100 (some 100) = none ∧
    net_retirement c (some r) = some (c, some (c - r)) := by
  refine ⟨by decide, by decide, ?_⟩
  have hne : c - r ≠ 0 := ne_of_lt hneg
  have hnotpos : ¬ 0 < c - r := not_lt.mpr (le_of_lt hneg)
  simp [net_retirement, hne, hnotpos]

/-- Witness for C7 at a concrete input (150 MW retired of 100 MW). -/
theorem net_retirement_spec_witness :
    net_retirement 100 (some 40) = some (60, some 60) ∧
    net_retirement 100 (some 100) = none ∧
    net_retirement 100 (some 150) = some (100, some (100 - 150)) :=
  net_retirement_spec 100 150 (by norm_num)

/-! ### Multi-fuel detection
(`scrape.py`, `parse_eia923_data`, lines 1059-1072) -/

/-- The selection of lines 1060-1062: a record enters the multi-fuel set
iff its `Fraction of Yearly Fuel Use` lies in [0.05, 0.95], both ends
inclusive. -/
def multi_fuel_selected (f : ℚ) : Bool := decide (5/100 ≤ f ∧ f ≤ 95/100)

/-- The columns of the reloaded `fuel_based_gen_projects` frame (the
`generation_projects_{year}.tab` columns, i.e. `gen_relevant_data`
without the dropped `Unit Code`/`Generator Id` and with `EIA Plant Code`
renamed back to `Plant Code`); after `reset_index(drop=True)` its row
index is positional. -/
def projColumns : List String :=
  ["Plant Code", "Plant Name", "Status", "Nameplate Capacity (MW)",
   "Prime Mover", "Energy Source", "Energy Source 2", "Energy Source 3",
   "County", "State", "Nerc Region", "Operating Year",
   "Planned Retirement Year", "Operational Status"]

/-- `fuel_based_gen_projects.loc[row-label, column-label]` (line 1067):
a scalar lookup that raises `KeyError` (`Except.error`) unless the row
label exists in the positional index and the column label is one of the
frame's columns. -/
def locScalar (rows : List (String → Val)) (cols : List String)
    (i : ℕ) (c : String) : Except Unit Val :=
  if h : i < rows.length ∧ c ∈ cols then .ok ((rows.get ⟨i, h.1⟩) c)
  else .error ()

/-- `len(...)` applied to the looked-up scalar; only a string value has
a length (any other scalar would raise `TypeError`) — unreachable in
the loop, since the lookup never succeeds for the labels it passes. -/
def valLen : Val → ℕ
  | .str s => s.length
  | .num _ => 0

/-- The drop decision of lines 1064-1071: look up
`fuel_based_gen_projects.loc[plant-code, prime-mover]`, drop the record
when the result has length > 1, keep it when the lookup raises
`KeyError`. -/
def multi_fuel_dropped (rows : List (String → Val)) (plantCode : ℕ)
    (pm : String) : Bool :=
  match locScalar rows projColumns plantCode pm with
  | .ok v => decide (1 < valLen v)
  | .error _ => false

/-- Lines 1060-1072 for one record: flagged multi-fuel iff selected by
the fraction test and not dropped by the lookup. -/
def multi_fuel_flag (rows : List (String → Val)) (plantCode : ℕ)
    (pm : String) (f : ℚ) : Bool :=
  multi_fuel_selected f && ! multi_fuel_dropped rows plantCode pm

/-- C8 (amended): a record is flagged multi-fuel iff its secondary
fuel's annual consumption share lies within 5% and 95% inclusive (so a
share of exactly 5% or 95% is flagged too); the intended exclusion of
records whose plant/prime-mover key maps to more than one underlying
fuel-aggregation row never takes effect, because the lookup passes the
record's plant code as a positional row label and its prime-mover code
as a column label — no fuel prime-mover code (`ST`, `GT`, `IC`, `CC`) is
a column of the frame, so every candidate raises `KeyError` and is
kept. -/
theorem multi_fuel_flag_spec (rows : List (String → Val)) (plantCode : ℕ)
    (pm : String) (f : ℚ) (hpm : pm ∈ ["ST", "GT", "IC", "CC"]) :
    multi_fuel_flag rows plantCode pm f = decide (5/100 ≤ f ∧ f ≤ 95/100) := by
  have hnc : pm ∉ projColumns := by
    fin_cases hpm <;> decide
  have hdrop : multi_fuel_dropped rows plantCode pm = false := by
    unfold multi_fuel_dropped locScalar
    rw [dif_neg (by simp [hnc])]
  simp [multi_fuel_flag, hdrop, multi_fuel_selected]

/-- Two fuel-aggregation rows of the same plant 1 and prime mover `ST`
with different fuels. -/
def exProjRows : List (String → Val) :=
  [fun c =>
    if c = "Plant Code" then .num 1
    else if c = "Prime Mover" then .str "ST"
    else if c = "Energy Source" then .str "Gas" else .str "",
   fun c =>
    if c = "Plant Code" then .num 1
    else if c = "Prime Mover" then .str "ST"
    else if c = "Energy Source" then .str "Oil" else .str ""]

/-- C8 (counterexample): a record of plant 1, prime mover `ST`, with a
secondary-fuel share of exactly 5% — not strictly between 5% and 95% —
whose plant/prime-mover key maps to two fuel-aggregation rows, is
nevertheless flagged multi-fuel: the boundary is inclusive and the
exclusion lookup never fires. -/
theorem claim_multi_fuel_counterexample :
    multi_fuel_flag exProjRows 1 "ST" (5/100) = true ∧
    (exProjRows.countP fun r =>
      decide (r "Plant Code" = .num 1 ∧ r "Prime Mover" = .str "ST")) = 2 := by
  constructor <;> decide

/-- Witness for C8 (amended) at a concrete input. -/
theorem multi_fuel_flag_spec_witness :
    multi_fuel_flag [] 0 "GT" (1/2) = decide ((5:ℚ)/100 ≤ 1/2 ∧ (1:ℚ)/2 ≤ 95/100) :=
  multi_fuel_flag_spec [] 0 "GT" (1/2) (by decide)

/-! ### Unit Aggregator
(`scrape.py`, `parse_eia860_data`, lines 397-416) -/

/-- One row of a grouping round: the grouping key (the tuple of filled
key-column values, compared and ordered lexicographically by pandas),
the summable column (`Nameplate Capacity (MW)`, the only member of
`gen_data_to_be_summed`) and the payload of all remaining columns,
reduced groupwise by pandas `'max'` — kept generic in the key type and
the reduction operation. -/
structure ARow (κ α : Type) where
  key : κ
  cap : ℚ
  rest : α

/-- The output row of one group: the group's key, its summed capacity,
and the `'max'` fold over its members in row order; `none` when the
group is empty (which never happens for a key drawn from the rows). -/
def groupRow {κ α : Type} [DecidableEq κ] (maxOp : α → α → α)
    (rows : List (ARow κ α)) (k : κ) : Option (ARow κ α) :=
  match rows.filter fun r => decide (r.key = k) with
  | [] => none
  | r0 :: rs =>
    some ⟨k, ((r0 :: rs).map (·.cap)).sum, (rs.map (·.rest)).foldl maxOp r0.rest⟩

/-- One `gb.agg(...)` round (scrape.py lines 406-416): the groups are
the distinct key tuples in ascending order (`groupby` sorts its keys),
the capacity column is summed over each group and every other column is
reduced with the binary `'max'` fold over the group members in row
order. -/
def aggregate {κ α : Type} [LinearOrder κ] (maxOp : α → α → α)
    (rows : List (ARow κ α)) : List (ARow κ α) :=
  (((rows.map (·.key)).dedup).insertionSort (· ≤ ·)).filterMap
    (groupRow maxOp rows)

theorem groupRow_key {κ α : Type} [DecidableEq κ] {maxOp : α → α → α}
    {rows : List (ARow κ α)} {k : κ} {b : ARow κ α}
    (h : groupRow maxOp rows k = some b) : b.key = k := by
  unfold groupRow at h
  rcases hf : rows.filter fun r => decide (r.key = k) with _ | ⟨r0, rs⟩ <;>
    rw [hf] at h
  · cases h
  · cases h
    rfl

theorem groupRow_ne_none {κ α : Type} [DecidableEq κ] {maxOp : α → α → α}
    {rows : List (ARow κ α)} {k : κ}
    (h : k ∈ rows.map (·.key)) : groupRow maxOp rows k ≠ none := by
  obtain ⟨r, hr, hrk⟩ := List.mem_map.mp h
  unfold groupRow
  rcases hf : rows.filter fun r => decide (r.key = k) with _ | ⟨r0, rs⟩
  · exfalso
    have : r ∈ rows.filter fun r => decide (r.key = k) :=
      List.mem_filter.mpr ⟨hr, by simp [hrk]⟩
    rw [hf] at this
    exact absurd this (List.not_mem_nil r)
  · rw [hf]
    simp

theorem aggregate_keys {κ α : Type} [LinearOrder κ] (maxOp : α → α → α)
    (rows : List (ARow κ α)) :
    (aggregate maxOp rows).map (·.key) =
      ((rows.map (·.key)).dedup).insertionSort (· ≤ ·) := by
  unfold aggregate
  generalize hks : ((rows.map (·.key)).dedup).insertionSort (· ≤ ·) = ks
  have hmem : ∀ k ∈ ks, k ∈ rows.map (·.key) := by
    intro k hk
    rw [← hks] at hk
    exact List.mem_dedup.mp ((List.perm_insertionSort _ _).mem_iff.mp hk)
  clear hks
  induction ks with
  | nil => simp
  | cons k ks ih =>
    rw [List.filterMap_cons]
    rcases hg : groupRow maxOp rows k with _ | b
    · exact absurd hg (groupRow_ne_none (hmem k (by simp)))
    · simp only [List.map_cons, groupRow_key hg]
      rw [ih (fun x hx => hmem x (List.mem_cons_of_mem _ hx))]

theorem aggregate_of_sorted_nodup {κ α : Type} [LinearOrder κ]
    (maxOp : α → α → α) (rows : List (ARow κ α))
    (hnd : (rows.map (·.key)).Nodup)
    (hsort : (rows.map (·.key)).Sorted (· ≤ ·)) :
    aggregate maxOp rows = rows := by
  unfold aggregate
  rw [List.dedup_eq_self.mpr hnd, hsort.insertionSort_eq]
  induction rows with
  | nil => simp
  | cons r rows ih =>
    have hnotin : r.key ∉ rows.map (·.key) := (List.nodup_cons.mp hnd).1
    have hfr : (r :: rows).filter (fun x => decide (x.key = r.key)) = [r] := by
      rw [List.filter_cons_of_pos (by simp)]
      congr 1
      rw [List.filter_eq_nil_iff]
      intro x hx
      simp only [decide_eq_true_eq]
      intro hxk
      exact hnotin (List.mem_map.mpr ⟨x, hx, hxk⟩)
    have hgr : groupRow maxOp (r :: rows) r.key = some r := by
      unfold groupRow
      rw [hfr]
      simp
    rw [List.map_cons, List.filterMap_cons, hgr]
    rw [List.filterMap_congr, ih (List.nodup_cons.mp hnd).2
      ((List.sorted_cons.mp hsort).2)]
    intro k hk
    have hkne : ¬ r.key = k := fun he => hnotin (he ▸ hk)
    unfold groupRow
    rw [List.filter_cons_of_neg (by simpa using hkne)]

/-- C9: running the Unit Aggregator again with an identical grouping-key
set on its own output is a no-op — the output's keys are pairwise
distinct and sorted, every group of the second round is a singleton, the
capacity sum over a singleton is the value itself and the `'max'` fold
over a singleton is its single element, so applying `aggregate` twice
yields the very same row list (same row count, same values in every
column). -/
theorem aggregate_idempotent {κ α : Type} [LinearOrder κ]
    (maxOp : α → α → α) (rows : List (ARow κ α)) :
    aggregate maxOp (aggregate maxOp rows) = aggregate maxOp rows := by
  apply aggregate_of_sorted_nodup
  · rw [aggregate_keys]
    exact ((List.perm_insertionSort _ _).nodup_iff).mpr (List.nodup_dedup _)
  · rw [aggregate_keys]
    exact List.sorted_insertionSort _ _

end EiaScrape
